import Mathlib

/-!
Formal model of the inventory dashboard's core data transformations:
the schema check of `load_data`, the metrics engine
`calculate_inventory_metrics` and the ABC classifier
`generate_abc_analysis` (helpers.py), and the data-view filter pipeline
(app.py, lines 233-264, with the minimal variant's search from
minimal_app.py).

Modelling conventions:
* a dataframe is a `List Row`; a missing numeric cell (pandas `NaN`) is
  `none`, a present one `some q` with `q : ℚ` (exact arithmetic stands in
  for IEEE doubles; every quantity handled by the code is finite, so
  `±inf`/`NaN` can only appear at the one division in the classifier,
  which is modelled explicitly by `PFloat`);
* pandas comparisons against a missing value are `false`, sums and
  cumulative sums skip missing values (`skipna=True` defaults), and
  `astype(str)` turns a missing value into the literal string `"nan"`;
* `sort_values(by=..., ascending=False)` is modelled twice.  The main
  model `sortDesc` is a stable descending sort with missing keys placed
  last in input order, matching pandas' `nargsort` (reverse, stable
  ascending argsort, reverse, then append the `NaN` positions); it is
  exact whenever the default sort kind runs its insertion-sort path,
  i.e. for at most 16 present-key rows, and beyond that regime it is
  exact up to the order of equal keys only, which the default
  quicksort does not preserve.  The tie-breaking behaviour of the
  default kind beyond that regime is embedded separately and faithfully
  by `npyArgSort`/`nargsortDesc`, a port of numpy's introspective
  quicksort, used to settle the stability question itself; every other
  conclusion drawn from `sortDesc` (descending order, permutation,
  missing-last, cumulative values along the sorted sequence) is
  invariant under permuting equal-valued rows;
* `str.contains(term, case=False)` is modelled as case-insensitive
  substring search, which matches the code's regex search for search
  terms containing no regex metacharacters.
-/

/-- One row of the inventory table.  All columns are optional so that
missing cells (pandas `NaN`) are representable; `load_data` only
guarantees that the required columns exist, not that cells are present. -/
structure Row where
  item_id : Option String
  item_name : Option String
  category : Option String
  quantity : Option ℚ
  price : Option ℚ
  min_stock : Option ℚ
  location : Option String
deriving DecidableEq, Repr

/-- Product of two optional numbers with pandas `NaN` propagation:
`quantity * price` is missing whenever either operand is missing. -/
def omul : Option ℚ → Option ℚ → Option ℚ
  | some a, some b => some (a * b)
  | _, _ => none

/-- Band test from helpers.py line 56 / app.py line 243:
`quantity < min_stock`; a comparison with a missing value is `false`. -/
def isLow (r : Row) : Bool :=
  match r.quantity, r.min_stock with
  | some q, some m => decide (q < m)
  | _, _ => false

/-- Band test from helpers.py line 61 / app.py line 254:
`quantity > min_stock * 2`; comparisons with missing values are `false`. -/
def isExcess (r : Row) : Bool :=
  match r.quantity, r.min_stock with
  | some q, some m => decide (m * 2 < q)
  | _, _ => false

/-- Band test from helpers.py line 66 / app.py lines 248-249:
`(quantity >= min_stock) & (quantity <= min_stock * 2)`. -/
def isHealthy (r : Row) : Bool :=
  match r.quantity, r.min_stock with
  | some q, some m => decide (m ≤ q) && decide (q ≤ m * 2)
  | _, _ => false

/-- A row paired with its derived `total_value = quantity * price`
column (missing when an operand is missing). -/
structure TVRow where
  base : Row
  tv : Option ℚ
deriving DecidableEq, Repr

/-- Numeric view of a possibly-missing total value; a missing value
reads as `0`, which is exactly its contribution to a pandas
`skipna` sum. -/
def tvv (r : TVRow) : ℚ := r.tv.getD 0

/-- pandas `Series.sum()` with its default `skipna=True`: missing
entries contribute nothing. -/
def skSum (l : List TVRow) : ℚ := (l.map tvv).sum

/-- Step 1 of the ABC classifier (helpers.py line 75) and the value
column of the metrics engine (line 53): attach `quantity * price`. -/
def withTV (df : List Row) : List TVRow := df.map (fun r => ⟨r, omul r.quantity r.price⟩)

/-- Result record of `calculate_inventory_metrics` (helpers.py 45-69). -/
structure InventoryMetrics where
  total_items : Nat
  total_value : ℚ
  low_stock_count : Nat
  low_stock_items : List Row
  excess_stock_count : Nat
  excess_stock_items : List Row
  healthy_stock_count : Nat
deriving DecidableEq, Repr

/-- Metrics engine, helpers.py lines 45-69: row count, `skipna` sum of
`quantity * price`, and the three band counts with the LOW/EXCESS
sub-tables (original row order preserved by `filter`). -/
def calculate_inventory_metrics (df : List Row) : InventoryMetrics :=
  { total_items := df.length
    total_value := skSum (withTV df)
    low_stock_count := (df.filter isLow).length
    low_stock_items := df.filter isLow
    excess_stock_count := (df.filter isExcess).length
    excess_stock_items := df.filter isExcess
    healthy_stock_count := (df.filter isHealthy).length }

/-- The required column list of `load_data`, helpers.py line 22. -/
def required_columns : List String :=
  ["item_id", "item_name", "quantity", "location", "price", "min_stock"]

/-- Raw tabular input to `load_data`: a header (column names) and raw
cell rows.  Only the header matters to the column check modelled here;
the cells pass through untouched on success. -/
structure RawTable where
  cols : List String
  cells : List (List String)
deriving DecidableEq, Repr

/-- Failure of `load_data`'s required-column check (helpers.py lines
21-27): carries the missing columns and the message text built by
`", ".join(missing_columns)`.  In the source the failure surfaces as an
error message plus a `None` result, i.e. no partial table. -/
inductive LoadError where
  | missingColumns (missing : List String) (message : String)
deriving DecidableEq, Repr

/-- Message text for a missing-columns failure: `", ".join(missing)`. -/
def missingMessage (ms : List String) : String := String.intercalate ", " ms

/-- Schema check of `load_data`, helpers.py lines 21-27: collect the
required columns absent from the header in required-column order; if
any are missing, fail with them (the load returns `None`, producing no
table), otherwise return the table.  The extension dispatch and the
per-cell numeric coercion of lines 13-33 are outside this model's
scope: the claims checked here depend only on the column check. -/
def load_data (t : RawTable) : Except LoadError RawTable :=
  let missing := required_columns.filter (fun c => decide (c ∉ t.cols))
  if missing.isEmpty then Except.ok t
  else Except.error (LoadError.missingColumns missing (missingMessage missing))

/-- Sort key relation for the descending value sort: `a` may come
before `b` when `b`'s key is at most `a`'s. -/
def rDesc (a b : TVRow) : Prop := tvv b ≤ tvv a

instance : DecidableRel rDesc := fun a b => inferInstanceAs (Decidable (tvv b ≤ tvv a))

instance : IsTotal TVRow rDesc := ⟨fun a b => le_total (tvv b) (tvv a)⟩

instance : IsTrans TVRow rDesc := ⟨fun _ _ _ h₁ h₂ => le_trans h₂ h₁⟩

/-- Step 2 of the ABC classifier, helpers.py line 78:
`sort_values(by='total_value', ascending=False)`.  pandas' `nargsort`
splits off the missing keys, argsorts the present keys between two
reversals, and appends the missing-key rows in input order.  Modelled
here as a stable descending insertion sort of the present-key rows
followed by the missing-key rows.  This is exact exactly when the
default sort kind stays on its insertion-sort path — at most 16
present-key rows (`SMALL_QUICKSORT = 15` in numpy); for larger tables
the default quicksort permutes equal keys (see `npyArgSort` /
`nargsortDesc` for the faithful embedding of that tie behaviour), so
beyond that regime only the tie-order-invariant consequences of this
model (descending key order, permutation of the rows, missing keys
last, the cumulative values attached to each sorted position) reflect
the program. -/
def sortDesc (l : List TVRow) : List TVRow :=
  List.insertionSort rDesc (l.filter (fun r => r.tv.isSome))
    ++ l.filter (fun r => !r.tv.isSome)

/-- Step 3a, helpers.py line 81: `cumsum()` with pandas' `skipna`
semantics.  A present value receives the running sum of all present
values so far including itself; a missing value stays missing and does
not disturb the running sum. -/
def cumWalk (acc : ℚ) : List TVRow → List (TVRow × Option ℚ)
  | [] => []
  | r :: rs => (r, r.tv.map (fun v => acc + v)) :: cumWalk (acc + tvv r) rs

/-- The value of `100 * cumulative_value / total_value_sum` as IEEE
arithmetic produces it.  Rationals model every finite double exactly;
the non-finite outcomes of the division are explicit constructors. -/
inductive PFloat where
  | val (q : ℚ)
  | posInf
  | negInf
  | nan
deriving DecidableEq, Repr

/-- Step 3b, helpers.py line 82: `100 * cum / total`.  A missing
numerator gives `NaN`; a zero denominator gives `NaN` on a zero
numerator and a signed infinity otherwise, exactly as float division
does. -/
def pctOf (c : Option ℚ) (s : ℚ) : PFloat :=
  match c with
  | none => PFloat.nan
  | some cv =>
    if s = 0 then
      if cv = 0 then PFloat.nan
      else if 0 < cv then PFloat.posInf else PFloat.negInf
    else PFloat.val (100 * cv / s)

/-- Step 4, helpers.py lines 85-86:
`np.where(pct <= 80, 'A', np.where(pct <= 95, 'B', 'C'))`.
A comparison against `NaN` is `false`, so `NaN` falls through to `'C'`;
`+inf` likewise; `-inf` satisfies the first test and yields `'A'`. -/
def pclassify : PFloat → String
  | PFloat.val p => if p ≤ 80 then "A" else if p ≤ 95 then "B" else "C"
  | PFloat.posInf => "C"
  | PFloat.negInf => "A"
  | PFloat.nan => "C"

/-- One row of the classifier's output table: the original row plus the
four added columns of helpers.py lines 75-86. -/
structure AbcRow where
  base : Row
  total_value : Option ℚ
  cumulative_value : Option ℚ
  cumulative_percentage : PFloat
  abc_class : String
deriving DecidableEq, Repr

/-- The sorted working table of the classifier (steps 1 and 2). -/
def sortedOf (df : List Row) : List TVRow := sortDesc (withTV df)

/-- `df_abc['total_value'].sum()` of helpers.py line 82, computed as in
the source over the sorted table (a `skipna` sum). -/
def abcTotal (df : List Row) : ℚ := skSum (sortedOf df)

/-- Assembly of one output row from a row and its cumulative value. -/
def mkAbcRow (s : ℚ) (rc : TVRow × Option ℚ) : AbcRow :=
  { base := rc.1.base
    total_value := rc.1.tv
    cumulative_value := rc.2
    cumulative_percentage := pctOf rc.2 s
    abc_class := pclassify (pctOf rc.2 s) }

/-- ABC classifier, helpers.py lines 71-88. -/
def generate_abc_analysis (df : List Row) : List AbcRow :=
  (cumWalk 0 (sortedOf df)).map (mkAbcRow (abcTotal df))

/-- Descending-order relation on output rows used to state step 2's
postcondition: whenever both rows carry a present `total_value`, the
later one is no larger. -/
def tvDescOn (x y : AbcRow) : Prop :=
  ∀ a b, x.total_value = some a → y.total_value = some b → b ≤ a

/-- Suffix-closure relation used to state that missing-value rows are
sorted to the end: once a row's `total_value` is missing, so is that of
every later row. -/
def tvNoneTail (x y : AbcRow) : Prop :=
  x.total_value = none → y.total_value = none

/-- Pointwise non-decreasing relation on the `cumulative_percentage`
column, comparing only rows whose percentage is an actual number. -/
def pctLe (x y : AbcRow) : Prop :=
  ∀ a b, x.cumulative_percentage = PFloat.val a →
    y.cumulative_percentage = PFloat.val b → a ≤ b

/-- Boolean companion of `pctLe`. -/
def pctLeB (x y : AbcRow) : Bool :=
  match x.cumulative_percentage, y.cumulative_percentage with
  | PFloat.val a, PFloat.val b => decide (a ≤ b)
  | _, _ => true

instance (x y : AbcRow) : Decidable (pctLe x y) :=
  decidable_of_iff (pctLeB x y = true) (by
    unfold pctLe pctLeB
    cases hx : x.cumulative_percentage <;> cases hy : y.cumulative_percentage <;>
      simp_all)

/-- Contiguous-subsequence test on character lists: the pattern occurs
somewhere in the haystack. -/
def hasSub (pat : List Char) : List Char → Bool
  | [] => pat.isEmpty
  | c :: cs => pat.isPrefixOf (c :: cs) || hasSub pat cs

/-- ASCII lowercasing of one character, the case folding Python's
case-insensitive regex flag applies to the ASCII identifiers used as
search keys. -/
def lowerChar (c : Char) : Char :=
  if 'A' ≤ c ∧ c ≤ 'Z' then Char.ofNat (c.toNat + 32) else c

/-- Case-insensitive substring test, the model of
`str.contains(term, case=False)` for search terms without regex
metacharacters (the code hands the term to a regex engine;
on metacharacter-free terms the regex search is exactly a
case-insensitive substring search). -/
def ciContains (hay term : String) : Bool :=
  hasSub (term.toList.map lowerChar) (hay.toList.map lowerChar)

/-- Python `str()` of a possibly-missing cell as `astype(str)` applies
it: a missing value becomes the literal text `"nan"`. -/
def strOfOpt : Option String → String
  | some s => s
  | none => "nan"

/-- Row predicate of the search filter in app.py lines 260-264:
`item_id.astype(str).str.contains(term, case=False) |
 item_name.str.contains(term, case=False)`.
The `item_id` column is stringified first (missing becomes `"nan"`),
while a missing `item_name` yields a missing comparison result that
the `|` fills with `False`. -/
def appMatch (term : String) (r : Row) : Bool :=
  ciContains (strOfOpt r.item_id) term ||
    (match r.item_name with
     | some n => ciContains n term
     | none => false)

/-- Row predicate of the search filter in minimal_app.py lines 118-121:
both columns go through `astype(str)`, so a missing value in either
becomes the text `"nan"` before matching (`na=False` then never
applies). -/
def minMatch (term : String) (r : Row) : Bool :=
  ciContains (strOfOpt r.item_id) term || ciContains (strOfOpt r.item_name) term

/-- Modelled from the spec (§4.4): the search predicate as the spec
words it, for comparison with the code's `appMatch`/`minMatch` — a
case-insensitive substring match against the present `item_id` or the
present `item_name`, with a missing value in a column treated as
non-matching for that column. -/
def claimMatch (term : String) (r : Row) : Bool :=
  (match r.item_id with
   | some i => ciContains i term
   | none => false) ||
  (match r.item_name with
   | some n => ciContains n term
   | none => false)

/-- The stock-band multiselect state of app.py lines 223-227: which of
the three band options are selected. -/
structure BandSel where
  low : Bool
  healthy : Bool
  excess : Bool
deriving DecidableEq, Repr

/-- Python truthiness of the multiselect list: non-empty iff some band
is selected. -/
def bandActive (s : BandSel) : Bool := s.low || s.healthy || s.excess

/-- The empty band selection (`default=[]` of the multiselect). -/
def noBands : BandSel := ⟨false, false, false⟩

/-- Location filter stage, app.py lines 235-236: skipped when the
selection list is empty (Python truthiness), otherwise keep rows whose
`location` is in the selection (`isin`; a missing location never
matches). -/
def locStage (locF : List String) (df : List Row) : List Row :=
  if locF.isEmpty then df
  else df.filter (fun r =>
    match r.location with
    | some l => decide (l ∈ locF)
    | none => false)

/-- Category filter stage, app.py lines 238-239: applied only when the
table has a `category` column and the selection is non-empty. -/
def catStage (hasCat : Bool) (catF : List String) (df : List Row) : List Row :=
  if hasCat && !catF.isEmpty then
    df.filter (fun r =>
      match r.category with
      | some c => decide (c ∈ catF)
      | none => false)
  else df

/-- Stock-band filter stage, app.py lines 241-258: skipped entirely
when no band is selected (`if stock_status:` on an empty list);
otherwise each selected band contributes its matching rows and the
three contributions are concatenated (`pd.concat`) in the fixed order
low, healthy, excess. -/
def bandStage (sel : BandSel) (df : List Row) : List Row :=
  if bandActive sel then
    (if sel.low then df.filter isLow else [])
      ++ (if sel.healthy then df.filter isHealthy else [])
      ++ (if sel.excess then df.filter isExcess else [])
  else df

/-- Search filter stage, app.py lines 260-264: skipped on the empty
search term (Python truthiness), otherwise keep rows matching the
search predicate. -/
def searchStage (term : String) (df : List Row) : List Row :=
  if term.isEmpty then df else df.filter (appMatch term)

/-- The whole data-view filter pipeline of app.py lines 233-264:
location, then category, then stock band, then search, each stage
consuming the previous stage's output.  `filtered_df = df.copy()`
makes the result an independent table; the model is pure, so the input
list is never changed. -/
def filteredTable (df : List Row) (hasCat : Bool) (locF catF : List String)
    (sel : BandSel) (term : String) : List Row :=
  searchStage term (bandStage sel (catStage hasCat catF (locStage locF df)))

/-- The filter pipeline with the stock-band stage removed; used to
state that an empty band selection imposes no constraint. -/
def filteredNoBand (df : List Row) (hasCat : Bool) (locF catF : List String)
    (term : String) : List Row :=
  searchStage term (catStage hasCat catF (locStage locF df))

/-- Number of selected bands. -/
def bandCount (s : BandSel) : Nat :=
  (if s.low then 1 else 0) + (if s.healthy then 1 else 0) + (if s.excess then 1 else 0)

/-- Row constructor for fully-populated rows (no `category`). -/
def mkRow (id nm : String) (q p m : ℚ) (loc : String) : Row :=
  ⟨some id, some nm, none, some q, some p, some m, some loc⟩

/-- One-row table with a negative `min_stock`: `quantity = -15` is both
below `min_stock = -10` (LOW) and above `2 * min_stock = -20` (EXCESS). -/
def negStockDf : List Row := [mkRow "N1" "NegItem" (-15) 1 (-10) "A-1"]

/-- Three-row table hitting each band once (`min_stock = 10`). -/
def threeBandDf : List Row :=
  [mkRow "L1" "LowItem" 1 1 10 "A-1",
   mkRow "H1" "MidItem" 10 1 10 "A-2",
   mkRow "E1" "BigItem" 25 1 10 "A-3"]

/-- Three-row table whose value shares are exactly 80%, 15% and 5%, so
the cumulative percentages are exactly 80, 95 and 100. -/
def boundaryDf : List Row :=
  [mkRow "I1" "Alpha" 1 80 1 "A-1",
   mkRow "I2" "Beta" 1 15 1 "A-2",
   mkRow "I3" "Gamma" 1 5 1 "A-3"]

/-- Two-row table with a negative-value row: values 5 and -3, sum 2. -/
def negValueDf : List Row :=
  [mkRow "P1" "Plus" 1 5 1 "A-1",
   mkRow "M1" "Minus" 1 (-3) 1 "A-2"]

/-- Two-row table with positive values 2 and 1. -/
def posValueDf : List Row :=
  [mkRow "V1" "Two" 1 2 1 "A-1",
   mkRow "V2" "One" 1 1 1 "A-2"]

/-- Two-row table with all values zero (prices are 0). -/
def zeroValueDf : List Row :=
  [mkRow "Z1" "ZeroA" 1 0 1 "A-1",
   mkRow "Z2" "ZeroB" 2 0 1 "A-2"]

/-- One-row table whose only row is missing its `price`. -/
def missingPriceDf : List Row :=
  [⟨some "X1", some "NoPrice", none, some 1, none, some 1, some "A-1"⟩]

/-- Header missing only the `price` column. -/
def noPriceCols : RawTable :=
  ⟨["item_id", "item_name", "quantity", "location", "min_stock"], []⟩

/-- Two-row table: a HEALTHY row first, a LOW row second. -/
def healthyLowDf : List Row :=
  [mkRow "H9" "Mid" 10 1 10 "B-1",
   mkRow "L9" "Low" 1 1 10 "B-2"]

/-- Row with a missing `item_id` and the name `"Widget"`. -/
def noIdRow : Row := ⟨none, some "Widget", none, some 1, some 1, some 1, some "A-1"⟩

/-- One-row table with a fully populated, healthy row. -/
def oneRowDf : List Row := [mkRow "K1" "KItem" 1 1 1 "A-1"]

/-- The first output row of the classifier on `boundaryDf`. -/
def boundaryRowA : AbcRow :=
  ⟨mkRow "I1" "Alpha" 1 80 1 "A-1", some 80, some 80, PFloat.val 80, "A"⟩

/-- The second output row of the classifier on `boundaryDf`. -/
def boundaryRowB : AbcRow :=
  ⟨mkRow "I2" "Beta" 1 15 1 "A-2", some 15, some 95, PFloat.val 95, "B"⟩

/-- The last output row of the classifier on `posValueDf`. -/
def posLastRow : AbcRow :=
  ⟨mkRow "V2" "One" 1 1 1 "A-2", some 1, some 3, PFloat.val 100, "C"⟩

/-- The single output row of the classifier on `missingPriceDf`. -/
def missingPriceAbcRow : AbcRow :=
  ⟨⟨some "X1", some "NoPrice", none, some 1, none, some 1, some "A-1"⟩,
    none, none, PFloat.nan, "C"⟩

/-- Bounds-defaulting array read for index arrays.  The C code's
pointer reads stay in range by the partition's sentinel invariants; an
out-of-range read here returns a default and is never reached on the
executions that model the C code. -/
def agetN (t : Array Nat) (i : Nat) : Nat := (t[i]?).getD 0

/-- Bounds-defaulting array read for the key vector. -/
def agetQ (v : Array ℚ) (i : Nat) : ℚ := (v[i]?).getD 0

/-- Bounds-defaulting array write. -/
def asetN (t : Array Nat) (i : Nat) (x : Nat) : Array Nat :=
  if h : i < t.size then t.set ⟨i, h⟩ x else t

/-- `INTP_SWAP` of numpy's npysort sources. -/
def aswapN (t : Array Nat) (i j : Nat) : Array Nat :=
  let x := agetN t i
  let y := agetN t j
  asetN (asetN t i y) j x

/-- `npy_get_msb`: index of the highest set bit, written with explicit
fuel so that it evaluates by kernel reduction. -/
def msbFuel : Nat → Nat → Nat
  | 0, _ => 0
  | fuel + 1, n => if 2 ≤ n then msbFuel fuel (n / 2) + 1 else 0

/-- The left-pointer advance of numpy's partition:
`do ++pi; while (v[*pi] < vp)`. -/
def scanUp (v : Array ℚ) (t : Array Nat) (vp : ℚ) : Nat → Nat → Nat
  | 0, pi => pi + 1
  | fuel + 1, pi =>
    let pi' := pi + 1
    if agetQ v (agetN t pi') < vp then scanUp v t vp fuel pi' else pi'

/-- The right-pointer retreat of numpy's partition:
`do --pj; while (vp < v[*pj])`. -/
def scanDown (v : Array ℚ) (t : Array Nat) (vp : ℚ) : Nat → Nat → Nat
  | 0, pj => pj - 1
  | fuel + 1, pj =>
    let pj' := pj - 1
    if vp < agetQ v (agetN t pj') then scanDown v t vp fuel pj' else pj'

/-- The crossing loop of numpy's Hoare-style partition: advance both
pointers, stop when they cross, otherwise swap and continue.  Returns
the permuted index array and the final left pointer. -/
def partLoop (v : Array ℚ) (vp : ℚ) : Nat → Array Nat → Nat → Nat → Array Nat × Nat
  | 0, t, pi, _ => (t, pi)
  | fuel + 1, t, pi, pj =>
    let pi' := scanUp v t vp t.size pi
    let pj' := scanDown v t vp t.size pj
    if pj' ≤ pi' then (t, pi')
    else partLoop v vp fuel (aswapN t pi' pj') pi' pj'

/-- The inner shift of numpy's insertion sort:
`while (pj > pl && vp < v[*pk]) *pj-- = *pk--; *pj = vi`. -/
def insShift (v : Array ℚ) (vp : ℚ) (vi : Nat) (pl : Nat) :
    Nat → Array Nat → Nat → Array Nat
  | 0, t, pj => asetN t pj vi
  | fuel + 1, t, pj =>
    if pl < pj ∧ vp < agetQ v (agetN t (pj - 1)) then
      insShift v vp vi pl fuel (asetN t pj (agetN t (pj - 1))) (pj - 1)
    else asetN t pj vi

/-- numpy's insertion sort over the index range `[pl, pr]` (the branch
the introspective sort takes on ranges of at most 16 elements); it is
stable. -/
def insSortRange (v : Array ℚ) (t : Array Nat) (pl pr : Nat) : Array Nat :=
  (List.range' (pl + 1) (pr - pl)).foldl
    (fun t pi =>
      let vi := agetN t pi
      insShift v (agetQ v vi) vi pl t.size t pi) t

/-- Driver of numpy's introspective quicksort for `argsort`
(npysort `aquicksort`, the default `kind='quicksort'` of the pandas
sort): while a range holds more than `SMALL_QUICKSORT = 15` elements,
pick a median-of-three pivot, park it next to the right end, run the
crossing partition, restore the pivot, recurse on the smaller side and
stack the larger; ranges of at most 16 elements are finished by the
stable insertion sort.  The C code switches to heapsort when a depth
budget of `2 * msb(n)` partitions is exhausted; that regime is outside
this model and yields `none`. -/
def introLoop (v : Array ℚ) :
    Nat → Array Nat → Nat → Nat → List (Nat × Nat) → Int → Option (Array Nat)
  | 0, _, _, _, _, _ => none
  | fuel + 1, t, pl, pr, stack, depth =>
    if 15 < pr - pl then
      if depth < 0 then none
      else
        let pm := pl + (pr - pl) / 2
        let t := if agetQ v (agetN t pm) < agetQ v (agetN t pl) then aswapN t pm pl else t
        let t := if agetQ v (agetN t pr) < agetQ v (agetN t pm) then aswapN t pr pm else t
        let t := if agetQ v (agetN t pm) < agetQ v (agetN t pl) then aswapN t pm pl else t
        let vp := agetQ v (agetN t pm)
        let t := aswapN t pm (pr - 1)
        let tp := partLoop v vp t.size t pl (pr - 1)
        let t := aswapN tp.1 tp.2 (pr - 1)
        if tp.2 - pl < pr - tp.2 then
          introLoop v fuel t pl (tp.2 - 1) ((tp.2 + 1, pr) :: stack) (depth - 1)
        else
          introLoop v fuel t (tp.2 + 1) pr ((pl, tp.2 - 1) :: stack) (depth - 1)
    else
      let t := insSortRange v t pl pr
      match stack with
      | [] => some t
      | (pl', pr') :: rest => introLoop v fuel t pl' pr' rest depth

/-- numpy `argsort(kind='quicksort')` on a key vector: the input
positions in ascending key order, as the introspective sort emits
them.  `none` only when the run would leave the modelled regime
(heapsort fallback; the fuel is a strict upper bound on the loop's
steps, so it is never the cause). -/
def npyArgSort (keys : List ℚ) : Option (List Nat) :=
  match keys.length with
  | 0 => some []
  | n + 1 =>
    (introLoop keys.toArray (8 * (n + 1) + 8) (List.range (n + 1)).toArray 0 n []
      (2 * msbFuel (n + 1) (n + 1))).map Array.toList

/-- pandas `nargsort` for `ascending=False` on an all-present key
vector (pandas/core/sorting.py): reverse the keys, argsort ascending
with the chosen kind, pick the original positions through the
reversal, and reverse the result (missing keys would be appended
last).  This is the faithful tie-breaking refinement of
`sort_values(by='total_value', ascending=False)` beyond the
insertion-sort regime in which `sortDesc` is exact. -/
def nargsortDesc (keys : List ℚ) : Option (List Nat) :=
  (npyArgSort keys.reverse).map
    (fun s => (s.map (fun j => keys.length - 1 - j)).reverse)

/-- Seventeen rows with identical `total_value = 1` — one more than
the insertion-sort regime of the default sort kind. -/
def equalValueDf17 : List Row := List.replicate 17 (mkRow "E1" "Equal" 1 1 1 "A-1")

/-- Two rows with equal `total_value = 6` and distinct identifiers. -/
def tieDf : List Row :=
  [mkRow "T1" "TieA" 2 3 1 "A-1",
   mkRow "T2" "TieB" 3 2 1 "A-2"]

/-- C6. A raw table missing at least one required column fails the load
with a missing-columns error naming exactly the absent required
columns (message text is their `", "`-join), and no table is returned. -/
theorem c6_missing_columns (t : RawTable)
    (h : ∃ c ∈ required_columns, c ∉ t.cols) :
    ∃ ms msg, load_data t = Except.error (LoadError.missingColumns ms msg)
      ∧ (∀ c, c ∈ ms ↔ (c ∈ required_columns ∧ c ∉ t.cols))
      ∧ msg = missingMessage ms := by
  obtain ⟨c, hc, hnc⟩ := h
  refine ⟨required_columns.filter (fun c => decide (c ∉ t.cols)), _, ?_, ?_, rfl⟩
  · have hmem : c ∈ required_columns.filter (fun c => decide (c ∉ t.cols)) :=
      List.mem_filter.mpr ⟨hc, by simpa using hnc⟩
    have hne : (required_columns.filter (fun c => decide (c ∉ t.cols))).isEmpty = false := by
      rcases hl : required_columns.filter (fun c => decide (c ∉ t.cols)) with _ | ⟨a, l⟩
      · rw [hl] at hmem; cases hmem
      · rfl
    unfold load_data
    simp only [hne, Bool.false_eq_true, if_false]
  · intro x
    simp [List.mem_filter]

/-- Witness for C6: the table whose header lacks only `price` fails
naming exactly `price`. -/
theorem c6_missing_columns_witness :
    (∃ ms msg, load_data noPriceCols = Except.error (LoadError.missingColumns ms msg)
      ∧ (∀ c, c ∈ ms ↔ (c ∈ required_columns ∧ c ∉ noPriceCols.cols))
      ∧ msg = missingMessage ms)
    ∧ load_data noPriceCols
        = Except.error (LoadError.missingColumns ["price"] "price") :=
  ⟨c6_missing_columns noPriceCols ⟨"price", by decide, by decide⟩, by rfl⟩

/-- C7 counterexample: with an empty stock-band selection (and no other
predicates) the filter returns the whole non-empty table, not the empty
table the claim requires. -/
theorem c7_empty_bands_ctex :
    filteredTable oneRowDf true [] [] noBands "" = oneRowDf
      ∧ oneRowDf ≠ ([] : List Row) := by
  constructor
  · decide
  · decide

/-- C7 amended: an empty stock-band selection imposes no constraint —
the band stage is skipped (the code guards it with the truthiness of
the selection list), so the pipeline equals the pipeline without the
band stage; in particular with all predicates empty the output is the
whole table. -/
theorem c7_empty_bands_no_constraint (df : List Row) (hasCat : Bool)
    (locF catF : List String) (term : String) :
    filteredTable df hasCat locF catF noBands term
        = filteredNoBand df hasCat locF catF term
      ∧ filteredTable df true [] [] noBands "" = df := by
  have hb : ∀ l : List Row, bandStage noBands l = l := fun l => by
    unfold bandStage
    exact if_neg (by decide)
  constructor
  · unfold filteredTable filteredNoBand
    rw [hb]
  · have h1 : locStage [] df = df := by
      unfold locStage
      exact if_pos rfl
    have h2 : catStage true [] df = df := by
      unfold catStage
      exact if_neg (by decide)
    have h4 : ∀ l : List Row, searchStage "" l = l := fun l => by
      unfold searchStage
      exact if_pos rfl
    unfold filteredTable
    rw [h1, h2, hb, h4]

/-- C9 counterexample: searching for `"nan"` keeps a row whose
`item_id` is missing (because `astype(str)` renders the missing cell as
the text `"nan"`), although the claim's predicate — match against a
present `item_id` or `item_name`, missing values non-matching — rejects
it. -/
theorem c9_nan_string_ctex :
    searchStage "nan" [noIdRow] = [noIdRow]
      ∧ claimMatch "nan" noIdRow = false := by
  constructor
  · decide
  · decide

/-- C9 amended: the search predicates of both app variants agree with
the spec-worded predicate (case-insensitive substring against present
`item_id` or `item_name`) except on stringification artifacts: a
missing `item_id` is matched as the literal text `"nan"` in both
variants, and the minimal variant also stringifies a missing
`item_name` to `"nan"`; both predicates are total functions (no
exception path), and matching is case-insensitive as the
`"kp001"`/`"KP001"` example shows. -/
theorem c9_search_semantics (term : String) (r : Row) :
    appMatch term r
        = (claimMatch term r || (r.item_id.isNone && ciContains "nan" term))
      ∧ minMatch term r
          = (claimMatch term r
              || ((r.item_id.isNone || r.item_name.isNone) && ciContains "nan" term))
      ∧ ciContains "KP001" "kp001" = true := by
  refine ⟨?_, ?_, by decide⟩
  · rcases hid : r.item_id with _ | i <;> rcases hnm : r.item_name with _ | n <;>
      simp [appMatch, minMatch, claimMatch, strOfOpt, hid, hnm, Bool.or_comm]
  · rcases hid : r.item_id with _ | i <;> rcases hnm : r.item_name with _ | n <;>
      simp [appMatch, minMatch, claimMatch, strOfOpt, hid, hnm, Bool.or_comm]

/-- C8 counterexample: with the LOW and HEALTHY bands both selected,
the filter returns the LOW row before the HEALTHY row although the
input table lists the HEALTHY row first — the surviving rows are
regrouped by band (`pd.concat`), so they are not in input order: the
output is not an order-preserving subsequence of the input. -/
theorem c8_band_regroup_ctex :
    filteredTable healthyLowDf true [] [] ⟨true, true, false⟩ ""
        = [mkRow "L9" "Low" 1 1 10 "B-2", mkRow "H9" "Mid" 10 1 10 "B-1"]
      ∧ healthyLowDf
          = [mkRow "H9" "Mid" 10 1 10 "B-1", mkRow "L9" "Low" 1 1 10 "B-2"]
      ∧ ¬ List.Sublist (filteredTable healthyLowDf true [] [] ⟨true, true, false⟩ "")
          healthyLowDf := by
  have h : filteredTable healthyLowDf true [] [] ⟨true, true, false⟩ ""
      = [mkRow "L9" "Low" 1 1 10 "B-2", mkRow "H9" "Mid" 10 1 10 "B-1"] := by
    norm_num [filteredTable, searchStage, bandStage, bandActive, catStage, locStage,
      healthyLowDf, mkRow, isLow, isHealthy, isExcess, List.filter,
      show ("".isEmpty) = true from rfl]
  refine ⟨h, rfl, ?_⟩
  rw [h]
  decide

/-- The location stage never reorders: its output is a subsequence of
its input. -/
theorem locStage_sublist (locF : List String) (df : List Row) :
    List.Sublist (locStage locF df) df := by
  unfold locStage
  split
  · exact List.Sublist.refl df
  · exact List.filter_sublist df

/-- The category stage never reorders. -/
theorem catStage_sublist (hasCat : Bool) (catF : List String) (df : List Row) :
    List.Sublist (catStage hasCat catF df) df := by
  unfold catStage
  split
  · exact List.filter_sublist df
  · exact List.Sublist.refl df

/-- The search stage never reorders. -/
theorem searchStage_sublist (term : String) (df : List Row) :
    List.Sublist (searchStage term df) df := by
  unfold searchStage
  split
  · exact List.Sublist.refl df
  · exact List.filter_sublist df

/-- With at most one band selected, the band stage never reorders. -/
theorem bandStage_sublist_of_le_one (sel : BandSel) (df : List Row)
    (h : bandCount sel ≤ 1) :
    List.Sublist (bandStage sel df) df := by
  rcases sel with ⟨l, hb, e⟩
  cases l
  · cases hb
    · cases e
      · simpa [bandStage, bandActive] using List.Sublist.refl df
      · simpa [bandStage, bandActive] using List.filter_sublist df
    · cases e
      · simpa [bandStage, bandActive] using List.filter_sublist df
      · simp [bandCount] at h
  · cases hb
    · cases e
      · simpa [bandStage, bandActive] using List.filter_sublist df
      · simp [bandCount] at h
    · cases e <;> simp [bandCount] at h

/-- C8 amended: when the stock-band predicate selects at most one band
(including none), the surviving rows of the whole filter pipeline
appear in their input order with no duplication — the output is a
subsequence of the input table.  (When two or more bands are selected
the output is instead grouped low/healthy/excess, preserving input
order only within each group; the model is pure, so the input table is
never modified in either case.) -/
theorem c8_order_preserved (df : List Row) (hasCat : Bool)
    (locF catF : List String) (sel : BandSel) (term : String)
    (h : bandCount sel ≤ 1) :
    List.Sublist (filteredTable df hasCat locF catF sel term) df := by
  unfold filteredTable
  exact ((searchStage_sublist term _).trans
    ((bandStage_sublist_of_le_one sel _ h).trans
      ((catStage_sublist hasCat catF _).trans (locStage_sublist locF df))))

/-- Witness for the amended C8 at a concrete input: one selected band
on the two-row table. -/
theorem c8_order_preserved_witness :
    List.Sublist (filteredTable healthyLowDf true [] [] ⟨true, false, false⟩ "")
      healthyLowDf :=
  c8_order_preserved healthyLowDf true [] [] ⟨true, false, false⟩ "" (by decide)

/-- C1 counterexample: on a row with `quantity = -15`, `min_stock = -10`
(both present), LOW (`-15 < -10`) and EXCESS (`-15 > -20`) hold at
once, so the three band counts sum to 2 on a one-row table. -/
theorem c1_band_overlap_ctex :
    (calculate_inventory_metrics negStockDf).low_stock_count
        + (calculate_inventory_metrics negStockDf).healthy_stock_count
        + (calculate_inventory_metrics negStockDf).excess_stock_count = 2
      ∧ (calculate_inventory_metrics negStockDf).total_items = 1
      ∧ negStockDf.all (fun r => r.quantity.isSome && r.min_stock.isSome) = true := by
  refine ⟨?_, rfl, by decide⟩
  norm_num [calculate_inventory_metrics, negStockDf, mkRow, isLow, isHealthy,
    isExcess, List.filter]

/-- On a row with present `quantity` and present, nonnegative
`min_stock`, exactly one of the three band predicates holds. -/
theorem band_trichotomy (r : Row) (q m : ℚ) (hq : r.quantity = some q)
    (hm : r.min_stock = some m) (h0 : 0 ≤ m) :
    ((isLow r || isHealthy r || isExcess r) = true)
      ∧ (isLow r && isHealthy r) = false
      ∧ (isLow r && isExcess r) = false
      ∧ (isHealthy r && isExcess r) = false := by
  simp only [isLow, isHealthy, isExcess, hq, hm]
  by_cases h1 : q < m
  · have h2 : ¬ m ≤ q := not_le.mpr h1
    have h3 : ¬ m * 2 < q := not_lt.mpr (le_trans (le_of_lt h1) (by linarith))
    simp [h1, h2, h3]
  · by_cases h4 : q ≤ m * 2
    · simp [h1, h4, le_of_not_lt h1, not_lt.mpr h4]
    · simp [h1, h4, not_le.mp h4]

/-- Filtering by three mutually exclusive, jointly exhaustive Boolean
predicates splits the length of a list. -/
theorem band_counts_add (df : List Row)
    (h : ∀ r ∈ df, (isLow r || isHealthy r || isExcess r) = true
      ∧ (isLow r && isHealthy r) = false
      ∧ (isLow r && isExcess r) = false
      ∧ (isHealthy r && isExcess r) = false) :
    (df.filter isLow).length + (df.filter isHealthy).length
      + (df.filter isExcess).length = df.length := by
  induction df with
  | nil => rfl
  | cons r rs ih =>
    obtain ⟨hc, h12, h13, h23⟩ := h r (List.mem_cons_self r rs)
    have ih' := ih (fun x hx => h x (List.mem_cons_of_mem r hx))
    cases hl : isLow r <;> cases hh : isHealthy r <;> cases he : isExcess r <;>
      simp [List.filter_cons, hl, hh, he] at hc h12 h13 h23 ⊢ <;> omega

/-- C1 amended: on a table whose rows all have present `quantity` and
present, nonnegative `min_stock`, the three band counts of the metrics
engine partition the rows — they sum to `total_items` and no row
satisfies two band predicates (with a negative `min_stock` the LOW and
EXCESS bands overlap, see the counterexample). -/
theorem c1_bands_partition (df : List Row)
    (h : ∀ r ∈ df, r.quantity.isSome = true ∧ r.min_stock.isSome = true
          ∧ 0 ≤ r.min_stock.getD 0) :
    ((calculate_inventory_metrics df).low_stock_count
        + (calculate_inventory_metrics df).healthy_stock_count
        + (calculate_inventory_metrics df).excess_stock_count
      = (calculate_inventory_metrics df).total_items)
    ∧ (∀ r ∈ df, (isLow r || isHealthy r || isExcess r) = true
        ∧ (isLow r && isHealthy r) = false
        ∧ (isLow r && isExcess r) = false
        ∧ (isHealthy r && isExcess r) = false) := by
  have htri : ∀ r ∈ df, (isLow r || isHealthy r || isExcess r) = true
      ∧ (isLow r && isHealthy r) = false
      ∧ (isLow r && isExcess r) = false
      ∧ (isHealthy r && isExcess r) = false := by
    intro r hr
    obtain ⟨hq, hm, h0⟩ := h r hr
    obtain ⟨q, hq'⟩ := Option.isSome_iff_exists.mp hq
    obtain ⟨m, hm'⟩ := Option.isSome_iff_exists.mp hm
    refine band_trichotomy r q m hq' hm' ?_
    rw [hm'] at h0
    simpa using h0
  exact ⟨by simpa [calculate_inventory_metrics] using band_counts_add df htri, htri⟩

/-- Witness for the amended C1 on a table containing one row of each
band. -/
theorem c1_bands_partition_witness :
    (calculate_inventory_metrics threeBandDf).low_stock_count
        + (calculate_inventory_metrics threeBandDf).healthy_stock_count
        + (calculate_inventory_metrics threeBandDf).excess_stock_count
      = (calculate_inventory_metrics threeBandDf).total_items :=
  (c1_bands_partition threeBandDf (by decide)).1

/-- The skipna sum distributes over append. -/
theorem skSum_append (l₁ l₂ : List TVRow) :
    skSum (l₁ ++ l₂) = skSum l₁ + skSum l₂ := by
  simp [skSum]

/-- The skipna sum of a cons. -/
theorem skSum_cons (r : TVRow) (l : List TVRow) :
    skSum (r :: l) = tvv r + skSum l := by
  simp [skSum]

/-- Permutations preserve the skipna sum. -/
theorem skSum_perm (l₁ l₂ : List TVRow) (h : List.Perm l₁ l₂) :
    skSum l₁ = skSum l₂ :=
  List.Perm.sum_eq (h.map tvv)

/-- The sorted working table is a permutation of its input. -/
theorem sortDesc_perm (l : List TVRow) : List.Perm (sortDesc l) l := by
  unfold sortDesc
  exact ((List.perm_insertionSort rDesc _).append_right _).trans
    (List.filter_append_perm _ l)

/-- The first components of the cumulative walk are the rows walked. -/
theorem cumWalk_fst (acc : ℚ) (l : List TVRow) :
    (cumWalk acc l).map Prod.fst = l := by
  induction l generalizing acc with
  | nil => rfl
  | cons r rs ih => simp [cumWalk, ih]

/-- The cumulative walk of an append splits, the accumulator advancing
by the skipna sum of the first part. -/
theorem cumWalk_append (l₁ l₂ : List TVRow) (acc : ℚ) :
    cumWalk acc (l₁ ++ l₂) = cumWalk acc l₁ ++ cumWalk (acc + skSum l₁) l₂ := by
  induction l₁ generalizing acc with
  | nil => simp [cumWalk, skSum]
  | cons r rs ih => simp [cumWalk, ih, skSum_cons, add_assoc]

/-- Each entry of the cumulative walk splits the walked list and, when
its own value is present, carries the accumulator plus the skipna sum
of everything before it plus its own value. -/
theorem cumWalk_decomp (l : List TVRow) (acc : ℚ) (x : TVRow × Option ℚ)
    (hx : x ∈ cumWalk acc l) :
    ∃ p q, l = p ++ x.1 :: q
      ∧ x.2 = x.1.tv.map (fun v => acc + skSum p + v) := by
  induction l generalizing acc with
  | nil => simp [cumWalk] at hx
  | cons r rs ih =>
    simp only [cumWalk, List.mem_cons] at hx
    rcases hx with h | h
    · refine ⟨[], rs, by simp [h], ?_⟩
      subst h
      simp [skSum]
    · obtain ⟨p, q, hl, hc⟩ := ih (acc + tvv r) h
      refine ⟨r :: p, q, by simp [hl], ?_⟩
      rw [hc, skSum_cons]
      cases x.1.tv with
      | none => rfl
      | some v => simp; ring_nf

/-- The last entry of the cumulative walk carries the full skipna sum
of the walked list. -/
theorem cumWalk_getLast (l : List TVRow) (acc : ℚ) (x : TVRow × Option ℚ)
    (hx : (cumWalk acc l).getLast? = some x) :
    ∃ p, l = p ++ [x.1] ∧ x.2 = x.1.tv.map (fun v => acc + skSum p + v) := by
  induction l generalizing acc with
  | nil => simp [cumWalk] at hx
  | cons r rs ih =>
    cases rs with
    | nil =>
      simp only [cumWalk, List.getLast?_singleton, Option.some.injEq] at hx
      refine ⟨[], ?_, ?_⟩
      · rw [← hx]
        rfl
      · rw [← hx]
        simp [skSum]
    | cons r2 rs2 =>
      have hx' : (cumWalk (acc + tvv r) (r2 :: rs2)).getLast? = some x := by
        rw [show cumWalk acc (r :: r2 :: rs2)
            = (r, r.tv.map (fun v => acc + v))
              :: (r2, r2.tv.map (fun v => acc + tvv r + v))
              :: cumWalk (acc + tvv r + tvv r2) rs2 from rfl,
          List.getLast?_cons_cons] at hx
        exact hx
      obtain ⟨p, hl, hc⟩ := ih (acc + tvv r) hx'
      refine ⟨r :: p, by simp [hl], ?_⟩
      rw [hc, skSum_cons]
      cases x.1.tv with
      | none => rfl
      | some v => simp; ring_nf

/-- Filtering the walk by a row predicate and projecting to the rows is
filtering the rows. -/
theorem cumWalk_filter_fst (p : TVRow → Bool) (l : List TVRow) (acc : ℚ) :
    ((cumWalk acc l).filter (fun rc => p rc.1)).map Prod.fst = l.filter p := by
  induction l generalizing acc with
  | nil => rfl
  | cons r rs ih =>
    cases hp : p r <;> simp [cumWalk, List.filter_cons, hp, ih]

/-- Inserting a row carrying key `k` prepends it to the key-`k`
subsequence: the rows it passes over all have strictly larger keys. -/
theorem filter_key_orderedInsert_pos (k : ℚ) (a : TVRow) (l : List TVRow)
    (ha : a.tv = some k) :
    (List.orderedInsert rDesc a l).filter (fun r => decide (r.tv = some k))
      = a :: l.filter (fun r => decide (r.tv = some k)) := by
  induction l with
  | nil => simp [List.orderedInsert, ha]
  | cons b bs ih =>
    by_cases hr : rDesc a b
    · simp [List.orderedInsert, hr, List.filter_cons, ha]
    · have hb : ¬ (b.tv = some k) := by
        intro hbk
        exact hr (by simp [rDesc, tvv, ha, hbk])
      simp [List.orderedInsert, hr, List.filter_cons, hb, ih]

/-- Inserting a row with a different key leaves the key-`k`
subsequence unchanged. -/
theorem filter_key_orderedInsert_neg (k : ℚ) (a : TVRow) (l : List TVRow)
    (ha : ¬ (a.tv = some k)) :
    (List.orderedInsert rDesc a l).filter (fun r => decide (r.tv = some k))
      = l.filter (fun r => decide (r.tv = some k)) := by
  induction l with
  | nil => simp [List.orderedInsert, ha]
  | cons b bs ih =>
    by_cases hr : rDesc a b
    · simp [List.orderedInsert, hr, List.filter_cons, ha]
    · simp [List.orderedInsert, hr, List.filter_cons, ih]

/-- Stability of the insertion sort: the subsequence of rows carrying
any fixed key `k` is exactly the one of the unsorted list. -/
theorem filter_key_insertionSort (k : ℚ) (l : List TVRow) :
    (List.insertionSort rDesc l).filter (fun r => decide (r.tv = some k))
      = l.filter (fun r => decide (r.tv = some k)) := by
  induction l with
  | nil => rfl
  | cons a l ih =>
    by_cases ha : a.tv = some k
    · rw [List.insertionSort, filter_key_orderedInsert_pos k a _ ha, ih]
      simp [List.filter_cons, ha]
    · rw [List.insertionSort, filter_key_orderedInsert_neg k a _ ha, ih]
      simp [List.filter_cons, ha]

/-- A list of nonpositive rationals has nonpositive sum. -/
theorem sum_nonpos_of_nonpos (l : List ℚ) (h : ∀ x ∈ l, x ≤ 0) : l.sum ≤ 0 := by
  induction l with
  | nil => simp
  | cons a l ih =>
    simp only [List.sum_cons]
    have h1 := h a (List.mem_cons_self a l)
    have h2 := ih (fun x hx => h x (List.mem_cons_of_mem a hx))
    linarith

/-- In a descending-sorted rational list with total zero, every
initial-segment sum is nonnegative. -/
theorem takeSumNonneg (L P Q : List ℚ) (hsort : L.Pairwise (fun a b => b ≤ a))
    (h0 : L.sum = 0) (hPQ : L = P ++ Q) : 0 ≤ P.sum := by
  by_contra hneg
  push_neg at hneg
  have hex : ∃ x ∈ P, x < 0 := by
    by_contra hall
    push_neg at hall
    exact absurd (List.sum_nonneg hall) (not_le.mpr hneg)
  obtain ⟨x, hxP, hx0⟩ := hex
  subst hPQ
  rw [List.pairwise_append] at hsort
  have hQ : ∀ y ∈ Q, y ≤ 0 :=
    fun y hy => le_trans (hsort.2.2 x hxP y hy) (le_of_lt hx0)
  have hQs := sum_nonpos_of_nonpos Q hQ
  rw [List.sum_append] at h0
  linarith

/-- Each classifier output row comes from one entry of the cumulative
walk of the sorted table. -/
theorem mem_abc (df : List Row) (r : AbcRow) (h : r ∈ generate_abc_analysis df) :
    ∃ rc ∈ cumWalk 0 (sortedOf df), r = mkAbcRow (abcTotal df) rc := by
  obtain ⟨rc, hrc, heq⟩ := List.mem_map.mp h
  exact ⟨rc, hrc, heq.symm⟩

/-- Each output row's class is the classification of its own
percentage column. -/
theorem abc_class_eq (df : List Row) (r : AbcRow)
    (h : r ∈ generate_abc_analysis df) :
    r.abc_class = pclassify r.cumulative_percentage := by
  obtain ⟨rc, _, rfl⟩ := mem_abc df r h
  rfl

/-- Each output row's percentage column is the division applied to its
own cumulative value and the total. -/
theorem abc_pct_eq (df : List Row) (r : AbcRow)
    (h : r ∈ generate_abc_analysis df) :
    r.cumulative_percentage = pctOf r.cumulative_value (abcTotal df) := by
  obtain ⟨rc, _, rfl⟩ := mem_abc df r h
  rfl

/-- Rows of the sorted working table carry the product of their own
base row's `quantity` and `price`. -/
theorem mem_sortedOf_tv (df : List Row) (t : TVRow) (h : t ∈ sortedOf df) :
    t.tv = omul t.base.quantity t.base.price := by
  have hmem : t ∈ withTV df := by
    unfold sortedOf at h
    exact (sortDesc_perm (withTV df)).mem_iff.mp h
  obtain ⟨row, _, heq⟩ := List.mem_map.mp hmem
  rw [← heq]

/-- The walked row of each cumulative-walk entry of the classifier is a
row of the sorted working table. -/
theorem abc_walk_row_mem (df : List Row) (rc : TVRow × Option ℚ)
    (h : rc ∈ cumWalk 0 (sortedOf df)) : rc.1 ∈ sortedOf df := by
  have := List.mem_map_of_mem Prod.fst h
  rwa [cumWalk_fst] at this

/-- Each output row's `total_value` column is the product of its own
`quantity` and `price`. -/
theorem abc_tv_eq (df : List Row) (r : AbcRow)
    (h : r ∈ generate_abc_analysis df) :
    r.total_value = omul r.base.quantity r.base.price := by
  obtain ⟨rc, hrc, rfl⟩ := mem_abc df r h
  exact mem_sortedOf_tv df rc.1 (abc_walk_row_mem df rc hrc)

/-- C3.  For every classifier output row whose cumulative percentage is
an actual number `p`, the class is `A` exactly when `p ≤ 80`, `B`
exactly when `80 < p ≤ 95`, and `C` exactly when `95 < p`; both
boundaries belong to the lower class. -/
theorem c3_class_thresholds (df : List Row) (r : AbcRow) (p : ℚ)
    (hmem : r ∈ generate_abc_analysis df)
    (hp : r.cumulative_percentage = PFloat.val p) :
    (r.abc_class = "A" ↔ p ≤ 80)
      ∧ (r.abc_class = "B" ↔ (80 < p ∧ p ≤ 95))
      ∧ (r.abc_class = "C" ↔ 95 < p) := by
  have hc := abc_class_eq df r hmem
  rw [hp] at hc
  rw [hc]
  unfold pclassify
  by_cases h1 : p ≤ 80
  · have h2 : ¬ 80 < p := not_lt.mpr h1
    have h3 : ¬ 95 < p := not_lt.mpr (by linarith)
    simp [h1, h2, h3]
  · by_cases h4 : p ≤ 95
    · have h5 : 80 < p := not_le.mp h1
      have h6 : ¬ 95 < p := not_lt.mpr h4
      simp [h1, h4, h5, h6]
    · have h7 : 95 < p := not_le.mp h4
      simp [h1, h4, h7]

/-- Witness for C3: on the 80/15/5-share table, the row at exactly 80%
is classified `A` and the row at exactly 95% is classified `B`. -/
theorem c3_class_thresholds_witness :
    (∃ r ∈ generate_abc_analysis boundaryDf,
        r.cumulative_percentage = PFloat.val 80 ∧ r.abc_class = "A")
      ∧ (∃ r ∈ generate_abc_analysis boundaryDf,
        r.cumulative_percentage = PFloat.val 95 ∧ r.abc_class = "B") := by
  have hout : generate_abc_analysis boundaryDf
      = [boundaryRowA, boundaryRowB,
          ⟨mkRow "I3" "Gamma" 1 5 1 "A-3", some 5, some 100, PFloat.val 100, "C"⟩] := by
    norm_num [generate_abc_analysis, sortedOf, sortDesc, withTV, boundaryDf, mkRow,
      omul, List.insertionSort, List.orderedInsert, rDesc, tvv, cumWalk, skSum,
      abcTotal, mkAbcRow, pctOf, pclassify, boundaryRowA, boundaryRowB, List.filter]
  have hmA : boundaryRowA ∈ generate_abc_analysis boundaryDf := by
    rw [hout]
    exact List.mem_cons_self _ _
  have hmB : boundaryRowB ∈ generate_abc_analysis boundaryDf := by
    rw [hout]
    exact List.mem_cons_of_mem _ (List.mem_cons_self _ _)
  refine ⟨⟨boundaryRowA, hmA, rfl, ?_⟩, ⟨boundaryRowB, hmB, rfl, ?_⟩⟩
  · exact (c3_class_thresholds boundaryDf boundaryRowA 80 hmA rfl).1.mpr (by norm_num)
  · exact (c3_class_thresholds boundaryDf boundaryRowB 95 hmB rfl).2.1.mpr
      (by norm_num)

/-- The classification always lands in `{A, B, C}`. -/
theorem pclassify_cases (x : PFloat) :
    pclassify x = "A" ∨ pclassify x = "B" ∨ pclassify x = "C" := by
  cases x with
  | val p =>
    unfold pclassify
    by_cases h1 : p ≤ 80
    · simp [h1]
    · by_cases h2 : p ≤ 95 <;> simp [h1, h2]
  | posInf => exact Or.inr (Or.inr rfl)
  | negInf => exact Or.inl rfl
  | nan => exact Or.inr (Or.inr rfl)

/-- An output row with missing `total_value` has missing cumulative
value, `NaN` percentage, and class `C`. -/
theorem abc_cum_none_class (df : List Row) (r : AbcRow)
    (h : r ∈ generate_abc_analysis df) (htv : r.total_value = none) :
    r.cumulative_value = none ∧ r.cumulative_percentage = PFloat.nan
      ∧ r.abc_class = "C" := by
  obtain ⟨rc, hrc, rfl⟩ := mem_abc df r h
  have h1 : rc.1.tv = none := htv
  obtain ⟨p, q, _, hc⟩ := cumWalk_decomp _ 0 rc hrc
  have h2 : rc.2 = none := by
    rw [hc, h1]
    rfl
  refine ⟨h2, ?_, ?_⟩ <;> simp [mkAbcRow, h2, pctOf, pclassify]

/-- Rows in the sorted front segment carry a present key. -/
theorem mem_sort_front_isSome (df : List Row) (x : TVRow)
    (h : x ∈ List.insertionSort rDesc ((withTV df).filter (fun r => r.tv.isSome))) :
    x.tv.isSome = true := by
  have hm := (List.perm_insertionSort rDesc _).mem_iff.mp h
  exact (List.mem_filter.mp hm).2

/-- Rows in the sorted tail segment carry a missing key. -/
theorem mem_sort_tail_none (df : List Row) (x : TVRow)
    (h : x ∈ (withTV df).filter (fun r => !r.tv.isSome)) : x.tv = none := by
  have hm := (List.mem_filter.mp h).2
  simp only [Bool.not_eq_true'] at hm
  cases htv : x.tv with
  | none => rfl
  | some v =>
    rw [htv] at hm
    cases hm

/-- The sorted working table sends missing keys to a suffix: once a
row's key is missing, so is that of every later row. -/
theorem sortedOf_none_tail (df : List Row) :
    (sortedOf df).Pairwise (fun x y => x.tv = none → y.tv = none) := by
  unfold sortedOf sortDesc
  rw [List.pairwise_append]
  refine ⟨?_, ?_, ?_⟩
  · apply List.pairwise_of_forall_mem_list
    intro a ha b _ hnone
    have := mem_sort_front_isSome df a ha
    rw [hnone] at this
    cases this
  · apply List.pairwise_of_forall_mem_list
    intro a _ b hb _
    exact mem_sort_tail_none df b hb
  · intro a _ b hb _
    exact mem_sort_tail_none df b hb

/-- C10.  Every classifier output row carries a class in `{A, B, C}`; a
`NaN` percentage yields class `C`; a row with missing `quantity` or
`price` gets class `C`; missing-value rows are sorted to the end (their
`total_value = none` is suffix-closed along the output), and every such
row gets class `C` — so one missing value forces its row and all
later-sorted rows to class `C`, with no error and no missing class. -/
theorem c10_class_total_and_nan (df : List Row) :
    (∀ r ∈ generate_abc_analysis df,
        (r.abc_class = "A" ∨ r.abc_class = "B" ∨ r.abc_class = "C")
          ∧ (r.cumulative_percentage = PFloat.nan → r.abc_class = "C")
          ∧ ((r.base.quantity = none ∨ r.base.price = none) → r.abc_class = "C"))
      ∧ (generate_abc_analysis df).Pairwise tvNoneTail
      ∧ (∀ r ∈ generate_abc_analysis df,
          r.total_value = none → r.abc_class = "C") := by
  have hnone : ∀ r ∈ generate_abc_analysis df,
      r.total_value = none → r.abc_class = "C" :=
    fun r hr htv => (abc_cum_none_class df r hr htv).2.2
  refine ⟨?_, ?_, hnone⟩
  · intro r hr
    refine ⟨?_, ?_, ?_⟩
    · rw [abc_class_eq df r hr]
      exact pclassify_cases _
    · intro hn
      rw [abc_class_eq df r hr, hn]
      rfl
    · intro hm
      apply hnone r hr
      rw [abc_tv_eq df r hr]
      rcases hm with h | h
      · rw [h]
        cases r.base.price <;> rfl
      · rw [h]
        cases r.base.quantity <;> rfl
  · have hS := sortedOf_none_tail df
    have h2 : ((cumWalk 0 (sortedOf df)).map Prod.fst).Pairwise
        (fun x y => x.tv = none → y.tv = none) := by
      rw [cumWalk_fst]
      exact hS
    have h3 := List.pairwise_map.mp h2
    unfold generate_abc_analysis
    exact List.pairwise_map.mpr (h3.imp (fun h => h))

/-- Witness for C10: the one-row table whose row misses its `price`
yields class `C` for that row. -/
theorem c10_class_total_and_nan_witness :
    missingPriceAbcRow ∈ generate_abc_analysis missingPriceDf
      ∧ missingPriceAbcRow.abc_class = "C" := by
  have hmem : missingPriceAbcRow ∈ generate_abc_analysis missingPriceDf := by
    have : generate_abc_analysis missingPriceDf = [missingPriceAbcRow] := by decide
    rw [this]
    exact List.mem_cons_self _ _
  exact ⟨hmem,
    ((c10_class_total_and_nan missingPriceDf).1 missingPriceAbcRow hmem).2.2
      (Or.inr rfl)⟩

/-- C5.  On any table whose per-row `total_value` sum is zero, the
classifier raises no error and assigns every row class `C` (the
cumulative percentages are `NaN` or `+inf`, both of which fall through
to `C`); the metrics engine is untouched by the condition. -/
theorem c5_zero_sum_all_C (df : List Row) (h : skSum (withTV df) = 0) :
    (∀ r ∈ generate_abc_analysis df, r.abc_class = "C")
      ∧ (calculate_inventory_metrics df).total_items = df.length := by
  refine ⟨?_, rfl⟩
  intro r hr
  have hs : abcTotal df = 0 := by
    unfold abcTotal sortedOf
    rw [skSum_perm _ _ (sortDesc_perm (withTV df))]
    exact h
  obtain ⟨rc, hrc, rfl⟩ := mem_abc df r hr
  cases htv : rc.1.tv with
  | none =>
    obtain ⟨p, q, _, hc⟩ := cumWalk_decomp _ 0 rc hrc
    have h2 : rc.2 = none := by
      rw [hc, htv]
      rfl
    simp [mkAbcRow, h2, pctOf, pclassify]
  | some v =>
    have hsplit : sortedOf df
        = List.insertionSort rDesc ((withTV df).filter (fun t => t.tv.isSome))
          ++ (withTV df).filter (fun t => !t.tv.isSome) := rfl
    have hrc2 : rc ∈ cumWalk 0
          (List.insertionSort rDesc ((withTV df).filter (fun t => t.tv.isSome)))
        ++ cumWalk
          (0 + skSum (List.insertionSort rDesc
            ((withTV df).filter (fun t => t.tv.isSome))))
          ((withTV df).filter (fun t => !t.tv.isSome)) := by
      rw [← cumWalk_append, ← hsplit]
      exact hrc
    rcases List.mem_append.mp hrc2 with hin | hin
    · obtain ⟨p, q, hFpq, hc⟩ := cumWalk_decomp _ 0 rc hin
      rw [htv] at hc
      have hsortF := List.sorted_insertionSort rDesc
        ((withTV df).filter (fun t => t.tv.isSome))
      have hLpair : ((List.insertionSort rDesc
          ((withTV df).filter (fun t => t.tv.isSome))).map tvv).Pairwise
          (fun a b => b ≤ a) :=
        List.pairwise_map.mpr (hsortF.imp (fun hab => hab))
      have hNsum : skSum ((withTV df).filter (fun t => !t.tv.isSome)) = 0 := by
        unfold skSum
        apply List.sum_eq_zero
        intro x hx
        obtain ⟨t, ht, rfl⟩ := List.mem_map.mp hx
        simp [tvv, mem_sort_tail_none df t ht]
      have hFsum : ((List.insertionSort rDesc
          ((withTV df).filter (fun t => t.tv.isSome))).map tvv).sum = 0 := by
        have h0 := hs
        unfold abcTotal at h0
        rw [hsplit, skSum_append, hNsum] at h0
        simpa [skSum] using h0
      have hcv : 0 ≤ skSum p + v := by
        have htake := takeSumNonneg _ ((p.map tvv) ++ [v]) (q.map tvv) hLpair hFsum
          (by
            rw [hFpq]
            simp [tvv, htv])
        simpa [List.sum_append, skSum] using htake
      have hrc2v : rc.2 = some (skSum p + v) := by
        rw [hc]
        simp
      rcases eq_or_lt_of_le hcv with heq | hlt
      · have h1 : skSum p + v = 0 := heq.symm
        simp [mkAbcRow, hrc2v, hs, pctOf, pclassify, h1]
      · have h1 : ¬ (skSum p + v = 0) := ne_of_gt hlt
        simp [mkAbcRow, hrc2v, hs, pctOf, pclassify, h1, hlt]
    · have hmem : rc.1 ∈ (withTV df).filter (fun t => !t.tv.isSome) := by
        have := List.mem_map_of_mem Prod.fst hin
        rwa [cumWalk_fst] at this
      rw [mem_sort_tail_none df rc.1 hmem] at htv
      cases htv

/-- Witness for C5: on the all-zero-value two-row table every output
row is classified `C`. -/
theorem c5_zero_sum_all_C_witness :
    (generate_abc_analysis zeroValueDf).all (fun r => r.abc_class == "C") = true := by
  have hz : skSum (withTV zeroValueDf) = 0 := by
    norm_num [skSum, withTV, zeroValueDf, mkRow, omul, tvv]
  exact List.all_eq_true.mpr
    (fun r hr => beq_iff_eq.mpr ((c5_zero_sum_all_C zeroValueDf hz).1 r hr))

/-- Projecting the cumulative walk to the base rows projects the walked
rows. -/
theorem cumWalk_map_base (acc : ℚ) (l : List TVRow) :
    (cumWalk acc l).map (fun rc => rc.1.base) = l.map TVRow.base := by
  induction l generalizing acc with
  | nil => rfl
  | cons r rs ih => simp [cumWalk, ih]

/-- Dropping the attached value column recovers the input table. -/
theorem withTV_map_base (df : List Row) : (withTV df).map TVRow.base = df := by
  have hc : (TVRow.base ∘ fun r =>
      ({ base := r, tv := omul r.quantity r.price } : TVRow)) = id := rfl
  rw [withTV, List.map_map, hc, List.map_id]

/-- C2 amended.  The classifier's output is sorted by `total_value`
descending (among rows with a present value) and is a permutation of
the input rows — both facts independent of how equal keys are broken;
and when the table has at most 16 present-value rows, so that the
default sort kind runs its stable insertion-sort path (the regime in
which `sortDesc` embeds the program exactly, see
`c2_quicksort_tie_ctex` for the tie permutation beyond it), the sort
is additionally stable: for every key `k`, the rows of value `k`
appear in exactly their input order. -/
theorem c2_sort_descending_amended (df : List Row) :
    (generate_abc_analysis df).Pairwise tvDescOn
      ∧ List.Perm ((generate_abc_analysis df).map AbcRow.base) df
      ∧ (((withTV df).filter (fun t => t.tv.isSome)).length ≤ 16 →
          ∀ k : ℚ,
            ((generate_abc_analysis df).filter
                (fun r => decide (r.total_value = some k))).map AbcRow.base
              = df.filter (fun r => decide (omul r.quantity r.price = some k))) := by
  have hsortF := List.sorted_insertionSort rDesc
    ((withTV df).filter (fun t => t.tv.isSome))
  have hbase : (generate_abc_analysis df).map AbcRow.base
      = (sortedOf df).map TVRow.base := by
    unfold generate_abc_analysis
    rw [List.map_map, ← cumWalk_map_base 0 (sortedOf df)]
    rfl
  refine ⟨?_, ?_, ?_⟩
  · have hS : (sortedOf df).Pairwise
        (fun x y : TVRow => ∀ a b, x.tv = some a → y.tv = some b → b ≤ a) := by
      unfold sortedOf sortDesc
      rw [List.pairwise_append]
      refine ⟨hsortF.imp ?_, ?_, ?_⟩
      · intro x y hxy
        intro a b hxa hyb
        have h' : tvv y ≤ tvv x := hxy
        simpa [tvv, hxa, hyb] using h'
      · apply List.pairwise_of_forall_mem_list
        intro x _ y hy a b _ hyb
        rw [mem_sort_tail_none df y hy] at hyb
        cases hyb
      · intro x _ y hy a b _ hyb
        rw [mem_sort_tail_none df y hy] at hyb
        cases hyb
    have h2 : ((cumWalk 0 (sortedOf df)).map Prod.fst).Pairwise
        (fun x y : TVRow => ∀ a b, x.tv = some a → y.tv = some b → b ≤ a) := by
      rw [cumWalk_fst]
      exact hS
    have h3 := List.pairwise_map.mp h2
    unfold generate_abc_analysis
    exact List.pairwise_map.mpr (h3.imp (fun h => h))
  · rw [hbase]
    have hperm := (sortDesc_perm (withTV df)).map TVRow.base
    rw [withTV_map_base] at hperm
    exact hperm
  · intro _ k
    have e1 : ((generate_abc_analysis df).filter
          (fun r => decide (r.total_value = some k))).map AbcRow.base
        = ((cumWalk 0 (sortedOf df)).filter
            (fun rc => decide (rc.1.tv = some k))).map (fun rc => rc.1.base) := by
      unfold generate_abc_analysis
      rw [List.filter_map, List.map_map]
      rfl
    have e2 : ((cumWalk 0 (sortedOf df)).filter
          (fun rc => decide (rc.1.tv = some k))).map (fun rc => rc.1.base)
        = ((sortedOf df).filter (fun t => decide (t.tv = some k))).map TVRow.base := by
      rw [← cumWalk_filter_fst (fun t => decide (t.tv = some k)) (sortedOf df) 0,
        List.map_map]
      rfl
    have e3 : (sortedOf df).filter (fun t => decide (t.tv = some k))
        = (withTV df).filter (fun t => decide (t.tv = some k)) := by
      unfold sortedOf sortDesc
      rw [List.filter_append]
      have hN : ((withTV df).filter (fun t => !t.tv.isSome)).filter
          (fun t => decide (t.tv = some k)) = [] := by
        rw [List.filter_eq_nil_iff]
        intro a ha
        simp [mem_sort_tail_none df a ha]
      rw [hN, List.append_nil, filter_key_insertionSort, List.filter_filter]
      apply List.filter_congr
      intro x _
      cases hx : x.tv <;> simp [hx]
    have e4 : ((withTV df).filter (fun t => decide (t.tv = some k))).map TVRow.base
        = df.filter (fun r => decide (omul r.quantity r.price = some k)) := by
      unfold withTV
      rw [List.filter_map, List.map_map]
      show (df.filter (fun r => decide (omul r.quantity r.price = some k))).map
        (fun r => r) = _
      simp
    rw [e1, e2, e3, e4]

/-- When all keys are present and nonnegative, the cumulative values of
the walk are pointwise non-decreasing. -/
theorem cumWalk_pairwise_mono (l : List TVRow) (acc : ℚ)
    (hsome : ∀ x ∈ l, x.tv.isSome = true) (hpos : ∀ x ∈ l, 0 ≤ tvv x) :
    (cumWalk acc l).Pairwise (fun a b => a.2.getD 0 ≤ b.2.getD 0) := by
  induction l generalizing acc with
  | nil => simp [cumWalk]
  | cons r rs ih =>
    refine List.Pairwise.cons ?_ (ih (acc + tvv r)
      (fun x hx => hsome x (List.mem_cons_of_mem r hx))
      (fun x hx => hpos x (List.mem_cons_of_mem r hx)))
    intro y hy
    obtain ⟨p, q, hl, hc⟩ := cumWalk_decomp rs (acc + tvv r) y hy
    have hy1 : y.1 ∈ rs := by
      rw [hl]
      exact List.mem_append.mpr (Or.inr (List.mem_cons_self _ _))
    obtain ⟨w, hw⟩ := Option.isSome_iff_exists.mp
      (hsome y.1 (List.mem_cons_of_mem r hy1))
    obtain ⟨v, hv⟩ := Option.isSome_iff_exists.mp (hsome r (List.mem_cons_self r rs))
    have hp0 : 0 ≤ skSum p := by
      apply List.sum_nonneg
      intro x hx
      obtain ⟨t, ht, rfl⟩ := List.mem_map.mp hx
      refine hpos t (List.mem_cons_of_mem r ?_)
      rw [hl]
      exact List.mem_append.mpr (Or.inl ht)
    have hw0 : 0 ≤ w := by
      have hyy := hpos y.1 (List.mem_cons_of_mem r hy1)
      simpa [tvv, hw] using hyy
    rw [hc, hw]
    simp [hv, tvv]
    linarith

/-- When the denominator is nonzero, a numeric percentage determines a
present cumulative value and the exact quotient. -/
theorem pctOf_val_inv (c : Option ℚ) (s x : ℚ) (hs : s ≠ 0)
    (h : pctOf c s = PFloat.val x) : ∃ cv, c = some cv ∧ x = 100 * cv / s := by
  cases c with
  | none => simp [pctOf] at h
  | some cv =>
    refine ⟨cv, rfl, ?_⟩
    simp [pctOf, hs] at h
    exact h.symm

/-- C4 counterexample: on the table with row values 5 and -3 (all
`quantity`/`price` present, total 2 ≠ 0), the cumulative percentages
along the sorted order are 250 followed by 100 — the column is not
non-decreasing. -/
theorem c4_negative_value_ctex :
    negValueDf.all (fun r => (omul r.quantity r.price).isSome) = true
      ∧ skSum (withTV negValueDf) = 2
      ∧ (generate_abc_analysis negValueDf).map (fun r => r.cumulative_percentage)
          = [PFloat.val 250, PFloat.val 100]
      ∧ ¬ List.Pairwise pctLe (generate_abc_analysis negValueDf) := by
  have hout : generate_abc_analysis negValueDf
      = [⟨mkRow "P1" "Plus" 1 5 1 "A-1", some 5, some 5, PFloat.val 250, "C"⟩,
          ⟨mkRow "M1" "Minus" 1 (-3) 1 "A-2", some (-3), some 2,
            PFloat.val 100, "C"⟩] := by
    norm_num [generate_abc_analysis, sortedOf, sortDesc, withTV, negValueDf, mkRow,
      omul, List.insertionSort, List.orderedInsert, rDesc, tvv, cumWalk, skSum,
      abcTotal, mkAbcRow, pctOf, pclassify, List.filter]
  refine ⟨by decide, ?_, ?_, ?_⟩
  · norm_num [skSum, withTV, negValueDf, mkRow, omul, tvv]
  · rw [hout]
    rfl
  · intro hp
    rw [hout] at hp
    have h1 := (List.pairwise_cons.mp hp).1 _ (List.mem_cons_self _ _)
    have h2 := h1 250 100 rfl rfl
    norm_num at h2

/-- C4 amended: when every row has present `quantity` and `price`, all
per-row values are nonnegative, and the total is nonzero, the
cumulative percentage column is an actual number on every row,
non-decreasing along the sorted order, and exactly 100 on the last
row.  (With a negative per-row value the column can decrease, see the
counterexample.) -/
theorem c4_cumpct_monotone (df : List Row)
    (h1 : ∀ r ∈ df, (omul r.quantity r.price).isSome = true)
    (h2 : ∀ r ∈ df, 0 ≤ (omul r.quantity r.price).getD 0)
    (h3 : skSum (withTV df) ≠ 0) :
    (generate_abc_analysis df).Pairwise pctLe
      ∧ (∀ r ∈ generate_abc_analysis df,
          ∃ x, r.cumulative_percentage = PFloat.val x)
      ∧ (∀ r, (generate_abc_analysis df).getLast? = some r →
          r.cumulative_percentage = PFloat.val 100) := by
  have hWsome : ∀ t ∈ withTV df, t.tv.isSome = true := by
    intro t ht
    obtain ⟨r, hr, rfl⟩ := List.mem_map.mp ht
    exact h1 r hr
  have hWpos : ∀ t ∈ withTV df, 0 ≤ tvv t := by
    intro t ht
    obtain ⟨r, hr, rfl⟩ := List.mem_map.mp ht
    simpa [tvv] using h2 r hr
  have hSsome : ∀ t ∈ sortedOf df, t.tv.isSome = true :=
    fun t ht => hWsome t ((sortDesc_perm (withTV df)).mem_iff.mp ht)
  have hSpos : ∀ t ∈ sortedOf df, 0 ≤ tvv t :=
    fun t ht => hWpos t ((sortDesc_perm (withTV df)).mem_iff.mp ht)
  have hsne : abcTotal df ≠ 0 := by
    unfold abcTotal sortedOf
    rw [skSum_perm _ _ (sortDesc_perm (withTV df))]
    exact h3
  have hs0 : 0 ≤ abcTotal df := by
    unfold abcTotal skSum
    apply List.sum_nonneg
    intro x hx
    obtain ⟨t, ht, rfl⟩ := List.mem_map.mp hx
    exact hSpos t ht
  have hspos : 0 < abcTotal df := lt_of_le_of_ne hs0 (Ne.symm hsne)
  have hcw := cumWalk_pairwise_mono (sortedOf df) 0 hSsome hSpos
  refine ⟨?_, ?_, ?_⟩
  · unfold generate_abc_analysis
    refine List.pairwise_map.mpr (hcw.imp ?_)
    intro a b hab
    intro x y hx hy
    obtain ⟨ca, hca, hxval⟩ := pctOf_val_inv a.2 (abcTotal df) x hsne hx
    obtain ⟨cb, hcb, hyval⟩ := pctOf_val_inv b.2 (abcTotal df) y hsne hy
    rw [hca, hcb] at hab
    simp only [Option.getD_some] at hab
    rw [hxval, hyval]
    gcongr
  · intro r hr
    obtain ⟨rc, hrc, rfl⟩ := mem_abc df r hr
    have hmem := abc_walk_row_mem df rc hrc
    obtain ⟨v, hv⟩ := Option.isSome_iff_exists.mp (hSsome rc.1 hmem)
    obtain ⟨p, q, _, hc⟩ := cumWalk_decomp _ 0 rc hrc
    refine ⟨100 * (0 + skSum p + v) / abcTotal df, ?_⟩
    show pctOf rc.2 (abcTotal df) = _
    rw [hc, hv]
    simp [pctOf, hsne]
  · intro r hr
    have hr' : (Option.map (mkAbcRow (abcTotal df))
        ((cumWalk 0 (sortedOf df)).getLast?)) = some r := by
      rw [← List.getLast?_map]
      exact hr
    cases hlast : (cumWalk 0 (sortedOf df)).getLast? with
    | none =>
      rw [hlast] at hr'
      cases hr'
    | some rc =>
      rw [hlast] at hr'
      have hrrc : r = mkAbcRow (abcTotal df) rc := by
        injection hr' with h
        exact h.symm
      subst hrrc
      obtain ⟨p, hS, hc⟩ := cumWalk_getLast _ 0 rc hlast
      have hmem : rc.1 ∈ sortedOf df := by
        rw [hS]
        exact List.mem_append.mpr (Or.inr (List.mem_cons_self _ _))
      obtain ⟨v, hv⟩ := Option.isSome_iff_exists.mp (hSsome rc.1 hmem)
      have hsum : skSum p + v = abcTotal df := by
        have he : abcTotal df = skSum (sortedOf df) := rfl
        rw [he, hS, skSum_append]
        simp [skSum, tvv, hv]
      show pctOf rc.2 (abcTotal df) = PFloat.val 100
      rw [hc, hv]
      simp only [Option.map_some']
      rw [show (0 : ℚ) + skSum p + v = skSum p + v by ring, hsum]
      simp only [pctOf, if_neg hsne]
      rw [mul_div_assoc, div_self hsne, mul_one]

/-- Witness for the amended C4 on the positive-value two-row table:
the percentage column is non-decreasing and its final value is
exactly 100. -/
theorem c4_cumpct_monotone_witness :
    (generate_abc_analysis posValueDf).Pairwise pctLe
      ∧ posLastRow.cumulative_percentage = PFloat.val 100 := by
  have ha : ∀ r ∈ posValueDf, (omul r.quantity r.price).isSome = true := by decide
  have hb : ∀ r ∈ posValueDf, 0 ≤ (omul r.quantity r.price).getD 0 := by
    intro r hr
    fin_cases hr <;> norm_num [omul, mkRow, posValueDf]
  have hcne : skSum (withTV posValueDf) ≠ 0 := by
    norm_num [skSum, withTV, posValueDf, mkRow, omul, tvv]
  have hres := c4_cumpct_monotone posValueDf ha hb hcne
  refine ⟨hres.1, ?_⟩
  apply hres.2.2 posLastRow
  have hout : generate_abc_analysis posValueDf
      = [⟨mkRow "V1" "Two" 1 2 1 "A-1", some 2, some 2,
            PFloat.val (200 / 3), "A"⟩, posLastRow] := by
    norm_num [generate_abc_analysis, sortedOf, sortDesc, withTV, posValueDf, mkRow,
      omul, List.insertionSort, List.orderedInsert, rDesc, tvv, cumWalk, skSum,
      abcTotal, mkAbcRow, pctOf, pclassify, posLastRow, List.filter]
  rw [hout]
  rfl

/-- C2 counterexample: on the seventeen-row table whose rows all carry
`total_value = 1`, the faithful embedding of the code's sort — pandas'
descending `nargsort` over numpy's default introspective quicksort —
returns the rows in the order `[0, 9, 15, 14, ...]`, not the input
order: one partition round (taken because 17 exceeds the
insertion-sort regime) permutes the equal keys, so the classifier's
sort is not stable on every input table.  At sixteen equal rows, the
largest table of the insertion-sort regime, the same embedding does
return the input order, which is the boundary the amended claim
keeps. -/
theorem c2_quicksort_tie_ctex :
    nargsortDesc (List.replicate 17 (1 : ℚ))
        = some [0, 9, 15, 14, 13, 12, 11, 10, 8, 1, 7, 6, 5, 4, 3, 2, 16]
      ∧ nargsortDesc (List.replicate 17 (1 : ℚ)) ≠ some (List.range 17)
      ∧ (withTV equalValueDf17).map tvv = List.replicate 17 (1 : ℚ)
      ∧ nargsortDesc (List.replicate 16 (1 : ℚ)) = some (List.range 16) := by
  refine ⟨by decide, by decide, ?_, by decide⟩
  norm_num [withTV, equalValueDf17, tvv, omul, mkRow, List.map_replicate]

/-- Witness for the amended C2: the two-row table with a tie at value 6
is inside the insertion-sort regime, and its tied rows come back in
input order. -/
theorem c2_sort_descending_amended_witness :
    ((generate_abc_analysis tieDf).filter
        (fun r => decide (r.total_value = some 6))).map AbcRow.base
      = tieDf.filter (fun r => decide (omul r.quantity r.price = some 6))
    ∧ tieDf.filter (fun r => decide (omul r.quantity r.price = some 6)) = tieDf := by
  refine ⟨(c2_sort_descending_amended tieDf).2.2 (by decide) 6, ?_⟩
  norm_num [tieDf, mkRow, omul, List.filter]
